import Mathlib

/-!
Shallow embedding of the `chaincode` package (smartcontract.go): a smart
contract recording git commits, per-repository version counters and push
events in a key-value world state.

The world state is modelled as an association list from keys to typed
values, kept in ascending key order (the ledger iterates keys in
lexicographic byte order).  Go compares strings byte-wise; for UTF-8
encoded strings byte order coincides with code-point order, which is what
`keyLt` below implements on `String.data`.

JSON encoding is modelled semantically: each stored value remembers which
of the three record shapes produced it, and `asGitCommit` /
`asRepositoryVersion` / `asPushTransaction` reproduce what Go's
`json.Unmarshal` yields when a value of one shape is decoded at another
shape (field names are matched exactly or case-insensitively; missing
fields are left at their zero values).

`time.Now().UTC().Format(time.RFC3339)` is modelled by threading the
formatted timestamp `now` as an explicit argument.

Errors carry the same distinctions as the `fmt.Errorf` messages in the
source; store-access failures and marshalling failures (impossible for
the in-scope record shapes) are outside the model.  Each mutating
operation returns the Go result paired with the world state including the
writes issued before returning, mirroring the stub's write set.
-/

/-- `GitCommit` as in the source (JSON tags equal the field names). -/
structure GitCommit where
  CommitHash    : String
  Repository    : String
  CommitMessage : String
  Author        : String
  VersionNumber : Int
  Timestamp     : String
deriving DecidableEq, Repr

/-- `PushTransaction` as in the source (lower-case JSON tags except `CommitHash`). -/
structure PushTransaction where
  repository : String
  remoteURL  : String
  timestamp  : String
  version    : Int
  CommitHash : String
deriving DecidableEq, Repr

/-- `RepositoryVersion` as in the source. -/
structure RepositoryVersion where
  Repository    : String
  VersionNumber : Int
deriving DecidableEq, Repr

/-- A marshalled value in the world state, remembering the shape that produced it. -/
inductive Value where
  | commit  (c : GitCommit)
  | version (v : RepositoryVersion)
  | push    (p : PushTransaction)
deriving DecidableEq, Repr

/-- Decoding a stored value with `json.Unmarshal(·, &gitCommit)`.
A `RepositoryVersion` value shares the keys `Repository` and
`VersionNumber` with `GitCommit`; a `PushTransaction` value matches
`CommitHash` exactly and `repository`/`timestamp` case-insensitively,
while `version` does not match `VersionNumber`; unmatched fields stay at
their zero values. -/
def asGitCommit : Value → GitCommit
  | .commit c  => c
  | .version v => ⟨"", v.Repository, "", "", v.VersionNumber, ""⟩
  | .push p    => ⟨p.CommitHash, p.repository, "", "", 0, p.timestamp⟩

/-- Decoding a stored value with `json.Unmarshal(·, &repoVersion)`. -/
def asRepositoryVersion : Value → RepositoryVersion
  | .commit c  => ⟨c.Repository, c.VersionNumber⟩
  | .version v => v
  | .push p    => ⟨p.repository, 0⟩

/-- Decoding a stored value with `json.Unmarshal(·, &pushTx)`. -/
def asPushTransaction : Value → PushTransaction
  | .commit c  => ⟨c.Repository, "", c.Timestamp, 0, c.CommitHash⟩
  | .version v => ⟨v.Repository, "", "", 0, ""⟩
  | .push p    => p

/-- Error kinds distinguished by the `fmt.Errorf` messages of the source. -/
inductive CCError where
  | alreadyExists (hash : String)
  | notFound (hash : String)
  | noVersion (repo : String)
  | repoMismatch (expected got : String)
deriving DecidableEq, Repr

/-- The world state: an association list from keys to values, ascending in key order. -/
abbrev Store := List (String × Value)

/-- Go's byte-wise lexicographic string comparison, on the code points of the key
(UTF-8 byte order coincides with code-point order). -/
def keyLt : List Char → List Char → Bool
  | [], []           => false
  | [], _ :: _       => true
  | _ :: _, []       => false
  | a :: as, b :: bs => if a < b then true else if b < a then false else keyLt as bs

/-- `a < b` for world-state keys, as the ledger (and Go) orders them. -/
def strLt (a b : String) : Bool := keyLt a.data b.data

/-- `GetState`: point lookup of a key. -/
def getState (st : Store) (k : String) : Option Value :=
  match st with
  | [] => none
  | (k₀, v₀) :: rest => if k₀ = k then some v₀ else getState rest k

/-- `PutState`: write a key, keeping the list ordered (overwrites an existing key). -/
def putState (st : Store) (k : String) (v : Value) : Store :=
  match st with
  | [] => [(k, v)]
  | (k₀, v₀) :: rest =>
    if strLt k k₀ then (k, v) :: (k₀, v₀) :: rest
    else if k = k₀ then (k, v) :: rest
    else (k₀, v₀) :: putState rest k v

/-- `GetStateByRange(a, b)`: all entries in the half-open interval `[a, b)`,
in key order; an empty `b` (as in `GetStateByRange("", "")`) means no upper
bound, per the Fabric stub contract. -/
def rangeScan (st : Store) (a b : String) : Store :=
  st.filter fun kv => !(strLt kv.1 a) && (b = "" || strLt kv.1 b)

/-- `GitCommitExists`: true when `GetState` returns a non-nil value. -/
def GitCommitExists (st : Store) (commitHash : String) : Bool :=
  (getState st commitHash).isSome

/-- `ReadGitCommit`: fails when the key is absent, else decodes as a `GitCommit`. -/
def ReadGitCommit (st : Store) (commitHash : String) : Except CCError GitCommit :=
  match getState st commitHash with
  | none   => .error (.notFound commitHash)
  | some v => .ok (asGitCommit v)

/-- `GetRepositoryVersion`: reads `"VERSION_" + repository` and decodes it. -/
def GetRepositoryVersion (st : Store) (repository : String) :
    Except CCError RepositoryVersion :=
  match getState st ("VERSION_" ++ repository) with
  | none   => .error (.noVersion repository)
  | some v => .ok (asRepositoryVersion v)

/-- `SetRepositoryVersion`: unconditional write at `"VERSION_" + repoVersion.Repository`. -/
def SetRepositoryVersion (st : Store) (repoVersion : RepositoryVersion) : Store :=
  putState st ("VERSION_" ++ repoVersion.Repository) (.version repoVersion)

/-- `IncrementVersionNumber`: read the current version, add 1, persist. -/
def IncrementVersionNumber (st : Store) (repository : String) :
    Except CCError Unit × Store :=
  match GetRepositoryVersion st repository with
  | .error e => (.error e, st)
  | .ok repoVersion =>
      (.ok (), SetRepositoryVersion st
        { repoVersion with VersionNumber := repoVersion.VersionNumber + 1 })

/-- `CreateGitCommit`: reject an existing hash; resolve the repository version,
seeding `1` when `GetRepositoryVersion` failed with exactly the
no-version message; stamp and store the commit under its hash. -/
def CreateGitCommit (st : Store) (commitHash repository commitMessage author : String)
    (now : String) : Except CCError Unit × Store :=
  if GitCommitExists st commitHash then
    (.error (.alreadyExists commitHash), st)
  else
    match GetRepositoryVersion st repository with
    | .ok repoVersion =>
        (.ok (), putState st commitHash
          (.commit ⟨commitHash, repository, commitMessage, author,
                    repoVersion.VersionNumber, now⟩))
    | .error e =>
        if e = .noVersion repository then
          let repoVersion : RepositoryVersion := ⟨repository, 1⟩
          let st₁ := SetRepositoryVersion st repoVersion
          (.ok (), putState st₁ commitHash
            (.commit ⟨commitHash, repository, commitMessage, author,
                      repoVersion.VersionNumber, now⟩))
        else
          (.error e, st)

/-- The confirmation message returned by a successful `HandleGitPush`. -/
def pushMessage (remoteURL : String) : String :=
  "All testing is done and audit processes approved, move to build stage. Git clone link: "
    ++ remoteURL

/-- `HandleGitPush`: increment the repository version; load the commit by hash;
check its `Repository` field; rewrite the commit; read the incremented
version; append the push transaction under `"PUSH_" + repository + "_" + timestamp`.
The returned store carries every write issued before the return. -/
def HandleGitPush (st : Store) (repository remoteURL commitHash : String)
    (now : String) : Except CCError String × Store :=
  match IncrementVersionNumber st repository with
  | (.error e, st') => (.error e, st')
  | (.ok _, st₁) =>
    match getState st₁ commitHash with
    | none => (.error (.notFound commitHash), st₁)
    | some v =>
      let lastCommit := asGitCommit v
      if lastCommit.Repository ≠ repository then
        (.error (.repoMismatch repository lastCommit.Repository), st₁)
      else
        let st₂ := putState st₁ commitHash (.commit lastCommit)
        match GetRepositoryVersion st₂ repository with
        | .error e => (.error e, st₂)
        | .ok repoVersion =>
          let pushTx : PushTransaction :=
            ⟨repository, remoteURL, now, repoVersion.VersionNumber, commitHash⟩
          let pushTxKey := "PUSH_" ++ repository ++ "_" ++ now
          (.ok (pushMessage remoteURL), putState st₂ pushTxKey (.push pushTx))

/-- `GetAllPushTransactions`: range scan over `["PUSH_", "PUSH_~")`, each
value decoded as a `PushTransaction`, in key order. -/
def GetAllPushTransactions (st : Store) : List PushTransaction :=
  (rangeScan st "PUSH_" "PUSH_~").map fun kv => asPushTransaction kv.2

/-- Byte-wise test that `p` is a prefix of `s` (on code points). -/
def startsWithChars : List Char → List Char → Bool
  | [], _            => true
  | _ :: _, []       => false
  | a :: as, b :: bs => a = b && startsWithChars as bs

/-- `strStarts p s`: the key `s` begins with the namespace tag `p`. -/
def strStarts (p s : String) : Bool := startsWithChars p.data s.data

/-- Drop the first `n` code points of a key. -/
def dropN : Nat → List Char → List Char
  | 0, l          => l
  | _ + 1, []     => []
  | n + 1, _ :: l => dropN n l

/-- `N` back-to-back `IncrementVersionNumber(repository)` invocations, each
applied to the world state left by the previous one. -/
def incN (R : String) (st : Store) : Nat → Store
  | 0     => st
  | n + 1 => (IncrementVersionNumber (incN R st n) R).2

/-- Keys strictly ascending: the shape every ledger snapshot has. -/
def sortedB : Store → Bool
  | []  => true
  | [_] => true
  | (k₁, _) :: (k₂, v₂) :: rest => strLt k₁ k₂ && sortedB ((k₂, v₂) :: rest)

/-- The key under which each record shape is stored by the contract's own
write paths: commits under their hash, versions under `"VERSION_" +
Repository`, push transactions under `"PUSH_" + repository + "_" + timestamp`. -/
def keyOf : Value → String
  | .commit c  => c.CommitHash
  | .version u => "VERSION_" ++ u.Repository
  | .push p    => "PUSH_" ++ p.repository ++ "_" ++ p.timestamp

/-- Canonically keyed store: every entry sits under the key its own shape
dictates, and no commit hash intrudes into the `VERSION_`/`PUSH_` key
namespaces. -/
def wfStoreB (st : Store) : Bool :=
  st.all fun kv =>
    (kv.1 == keyOf kv.2) &&
    (match kv.2 with
     | Value.commit c =>
         !(strStarts "VERSION_" c.CommitHash) && !(strStarts "PUSH_" c.CommitHash)
     | _ => true)

/-- Between two states, no stored `RepositoryVersion` record ever decreases. -/
def versionMono (st st' : Store) : Prop :=
  ∀ k u u', getState st k = some (Value.version u) →
    getState st' k = some (Value.version u') →
    u.VersionNumber ≤ u'.VersionNumber

/-- Between two states, a `RepositoryVersion` record appearing at a
previously empty key carries version number 1. -/
def versionFresh1 (st st' : Store) : Prop :=
  ∀ k u', getState st k = none → getState st' k = some (Value.version u') →
    u'.VersionNumber = 1

/-- Number of stored `RepositoryVersion` records whose `Repository` field is `r`. -/
def versionCount (st : Store) (r : String) : Nat :=
  (st.filter fun kv =>
    match kv.2 with
    | Value.version u => u.Repository == r
    | _ => false).length

/-- Every stored `RepositoryVersion` record sits under its canonical key
`"VERSION_" + Repository` — the part of canonical keying that every write
path of the contract maintains for version-shaped values. -/
def versionCanonical (st : Store) : Prop :=
  ∀ k u, (k, Value.version u) ∈ st → k = "VERSION_" ++ u.Repository

theorem getState_putState (st : Store) (k k' : String) (v : Value) :
    getState (putState st k v) k' = if k' = k then some v else getState st k' := by
  induction st with
  | nil =>
      by_cases h : k' = k
      · subst h; simp [putState, getState]
      · simp [putState, getState, h, Ne.symm h]
  | cons kv rest ih =>
      obtain ⟨k₀, v₀⟩ := kv
      simp only [putState]
      by_cases h1 : strLt k k₀
      · simp only [h1, if_pos]
        by_cases h : k' = k
        · subst h; simp [getState]
        · simp [getState, h, Ne.symm h]
      · by_cases h2 : k = k₀
        · subst h2
          simp only [h1, if_neg, Bool.not_eq_true, if_pos rfl]
          by_cases h : k' = k
          · subst h; simp [getState]
          · simp [getState, h, Ne.symm h]
        · simp only [h1, h2, if_neg, Bool.not_eq_true]
          by_cases h : k' = k
          · subst h
            simp [getState, Ne.symm h2, ih]
          · by_cases h0 : k₀ = k'
            · subst h0; simp [getState, h]
            · simp [getState, h0, h, ih]

theorem getState_putState_self (st : Store) (k : String) (v : Value) :
    getState (putState st k v) k = some v := by
  simp [getState_putState]

theorem getState_putState_ne (st : Store) (k k' : String) (v : Value) (h : k' ≠ k) :
    getState (putState st k v) k' = getState st k' := by
  simp [getState_putState, h]

theorem getState_mem {st : Store} {k : String} {v : Value} (h : getState st k = some v) :
    (k, v) ∈ st := by
  induction st with
  | nil => simp [getState] at h
  | cons kv rest ih =>
      obtain ⟨k₀, v₀⟩ := kv
      by_cases h0 : k₀ = k
      · subst h0
        simp [getState] at h
        simp [h]
      · simp [getState, h0] at h
        exact List.mem_cons_of_mem _ (ih h)

theorem startsWithChars_append (p s : List Char) :
    startsWithChars p (p ++ s) = true := by
  induction p with
  | nil => simp [startsWithChars]
  | cons a as ih => simp [startsWithChars, ih]

theorem strStarts_of_append (p x : String) : strStarts p (p ++ x) = true := by
  simp [strStarts, String.data_append, startsWithChars_append]

theorem append_ne_of_not_starts {p s : String} (x : String)
    (h : strStarts p s = false) : p ++ x ≠ s := by
  intro he
  rw [← he, strStarts_of_append] at h
  cases h

theorem version_key_ne_push_key (x y : String) :
    ("VERSION_" ++ x : String) ≠ "PUSH_" ++ y := by
  intro h
  have := congrArg String.data h
  simp [String.data_append] at this

theorem version_key_ne_push_tx_key (x r now : String) :
    ("VERSION_" ++ x : String) ≠ "PUSH_" ++ r ++ "_" ++ now := by
  intro h
  have := congrArg String.data h
  simp [String.data_append] at this

theorem version_key_inj {a b : String} (h : ("VERSION_" ++ a : String) = "VERSION_" ++ b) :
    a = b := by
  have hd := congrArg String.data h
  simp only [String.data_append] at hd
  have hab : a.data = b.data := by
    simpa using hd
  exact congrArg String.mk hab

/-- A write whose value is not a push record never makes a push record visible. -/
theorem putState_pull_push {st : Store} {k : String} {v : Value}
    (hv : ∀ q, v ≠ Value.push q) {k' : String} {p : PushTransaction}
    (h : getState (putState st k v) k' = some (Value.push p)) :
    getState st k' = some (Value.push p) := by
  rw [getState_putState] at h
  by_cases hk : k' = k
  · rw [if_pos hk] at h
    exact absurd (Option.some.inj h) (hv p)
  · rwa [if_neg hk] at h

/-- A write whose value is not a version record never makes a version record visible. -/
theorem putState_pull_version {st : Store} {k : String} {v : Value}
    (hv : ∀ q, v ≠ Value.version q) {k' : String} {u : RepositoryVersion}
    (h : getState (putState st k v) k' = some (Value.version u)) :
    getState st k' = some (Value.version u) := by
  rw [getState_putState] at h
  by_cases hk : k' = k
  · rw [if_pos hk] at h
    exact absurd (Option.some.inj h) (hv u)
  · rwa [if_neg hk] at h

theorem GetRepositoryVersion_eq_of_version {st : Store} {R : String} {u : RepositoryVersion}
    (hv : getState st ("VERSION_" ++ R) = some (Value.version u)) :
    GetRepositoryVersion st R = .ok u := by
  simp [GetRepositoryVersion, hv, asRepositoryVersion]

theorem GetRepositoryVersion_eq_none {st : Store} {R : String}
    (hv : getState st ("VERSION_" ++ R) = none) :
    GetRepositoryVersion st R = .error (.noVersion R) := by
  simp [GetRepositoryVersion, hv]

/-- `IncrementVersionNumber` on a repository whose version record is present
and canonically keyed: read, add one, write back at the same key. -/
theorem increment_eq {st : Store} {R : String} {v : Int}
    (hv : getState st ("VERSION_" ++ R) = some (Value.version ⟨R, v⟩)) :
    IncrementVersionNumber st R =
      (.ok (), putState st ("VERSION_" ++ R) (.version ⟨R, v + 1⟩)) := by
  simp [IncrementVersionNumber, GetRepositoryVersion_eq_of_version hv,
        SetRepositoryVersion]

theorem increment_eq_none {st : Store} {R : String}
    (hv : getState st ("VERSION_" ++ R) = none) :
    IncrementVersionNumber st R = (.error (.noVersion R), st) := by
  simp [IncrementVersionNumber, GetRepositoryVersion_eq_none hv]

/-- A successful `HandleGitPush`, spelled out: the three writes it issues when
the repository has a canonically keyed version record and the commit record
for the hash belongs to the repository. -/
theorem handleGitPush_ok_eq {st : Store} {R url H now : String} {v : Int} {c : GitCommit}
    (hv : getState st ("VERSION_" ++ R) = some (Value.version ⟨R, v⟩))
    (hc : getState st H = some (Value.commit c))
    (hcr : c.Repository = R) :
    HandleGitPush st R url H now =
      (.ok (pushMessage url),
       putState
         (putState (putState st ("VERSION_" ++ R) (.version ⟨R, v + 1⟩)) H (.commit c))
         ("PUSH_" ++ R ++ "_" ++ now)
         (.push ⟨R, url, now, v + 1, H⟩)) := by
  have hne : H ≠ "VERSION_" ++ R := by
    intro h
    rw [h, hv] at hc
    cases hc
  have h1 : getState (putState st ("VERSION_" ++ R) (.version ⟨R, v + 1⟩)) H
      = some (Value.commit c) := by
    rw [getState_putState_ne _ _ _ _ hne, hc]
  have h2 : getState
      (putState (putState st ("VERSION_" ++ R) (.version ⟨R, v + 1⟩)) H (.commit c))
      ("VERSION_" ++ R) = some (Value.version ⟨R, v + 1⟩) := by
    rw [getState_putState_ne _ _ _ _ (Ne.symm hne), getState_putState_self]
  simp [HandleGitPush, increment_eq hv, h1, asGitCommit, hcr,
        GetRepositoryVersion_eq_of_version h2]

theorem create_eq_seed {st : Store} {H R m a t : String}
    (hH : getState st H = none)
    (hv : getState st ("VERSION_" ++ R) = none) :
    CreateGitCommit st H R m a t =
      (.ok (), putState (putState st ("VERSION_" ++ R) (.version ⟨R, 1⟩)) H
        (.commit ⟨H, R, m, a, 1, t⟩)) := by
  simp [CreateGitCommit, GitCommitExists, hH, GetRepositoryVersion_eq_none hv,
        SetRepositoryVersion]

theorem create_eq_present {st : Store} {H R m a t : String} {u : RepositoryVersion}
    (hH : getState st H = none)
    (hv : getState st ("VERSION_" ++ R) = some (Value.version u)) :
    CreateGitCommit st H R m a t =
      (.ok (), putState st H (.commit ⟨H, R, m, a, u.VersionNumber, t⟩)) := by
  simp [CreateGitCommit, GitCommitExists, hH, GetRepositoryVersion_eq_of_version hv]

theorem incN_version {st : Store} {R : String} {v : Int}
    (hv : getState st ("VERSION_" ++ R) = some (Value.version ⟨R, v⟩)) :
    ∀ N : Nat, getState (incN R st N) ("VERSION_" ++ R) =
      some (Value.version ⟨R, v + N⟩) := by
  intro N
  induction N with
  | zero => simpa using hv
  | succ n ih =>
      have hstep : incN R st (n + 1) =
          putState (incN R st n) ("VERSION_" ++ R) (.version ⟨R, v + n + 1⟩) := by
        simp [incN, increment_eq ih]
      rw [hstep, getState_putState_self]
      have : v + (n : Int) + 1 = v + ((n : Nat) + 1 : Nat) := by push_cast; ring
      rw [this]

/-- C3: with the version record for `R` initialized at 1, each of `N`
back-to-back `IncrementVersionNumber(R)` calls succeeds, and afterwards
`GetRepositoryVersion(R)` reports version number `1 + N`. -/
theorem c3_increment_n_times (st : Store) (R : String) (N : Nat)
    (hv : getState st ("VERSION_" ++ R) = some (Value.version ⟨R, 1⟩)) :
    (∀ k : Nat, k < N → (IncrementVersionNumber (incN R st k) R).1 = .ok ()) ∧
    GetRepositoryVersion (incN R st N) R = .ok ⟨R, 1 + N⟩ := by
  constructor
  · intro k _
    rw [increment_eq (incN_version hv k)]
  · exact GetRepositoryVersion_eq_of_version (incN_version hv N)

theorem c3_increment_n_times_witness :
    getState [("VERSION_r", Value.version ⟨"r", 1⟩)] ("VERSION_" ++ "r") =
      some (Value.version ⟨"r", 1⟩) ∧
    GetRepositoryVersion (incN "r" [("VERSION_r", Value.version ⟨"r", 1⟩)] 3) "r" =
      .ok ⟨"r", 1 + (3 : Nat)⟩ := by
  refine ⟨rfl, ?_⟩
  exact (c3_increment_n_times [("VERSION_r", Value.version ⟨"r", 1⟩)] "r" 3 rfl).2

/-- C4: creating a commit whose hash is already a stored key fails with the
already-exists error and returns the store unchanged, so the record at that
key keeps its prior value. -/
theorem c4_create_existing_hash_fails (st : Store) (H rep m a t : String) (v : Value)
    (h : getState st H = some v) :
    CreateGitCommit st H rep m a t = (.error (.alreadyExists H), st) := by
  simp [CreateGitCommit, GitCommitExists, h]

theorem c4_create_existing_hash_fails_witness :
    CreateGitCommit [("h1", Value.commit ⟨"h1", "r", "m", "a", 1, "T"⟩)]
        "h1" "r" "m2" "a2" "T2" =
      (.error (.alreadyExists "h1"), [("h1", Value.commit ⟨"h1", "r", "m", "a", 1, "T"⟩)]) :=
  c4_create_existing_hash_fails _ "h1" "r" "m2" "a2" "T2"
    (Value.commit ⟨"h1", "r", "m", "a", 1, "T"⟩) rfl

/-- C1: with repository `R` at version `v`, the commit for `H` recorded for
`R`, and no record yet under the push key for the current timestamp, a
`HandleGitPush(R, url, H)` succeeds, writes the push transaction carrying
version `v + 1` and commit hash `H`, leaves every pre-existing push record
in place and adds no other push record, and `GetRepositoryVersion(R)`
afterwards reports `v + 1`. -/
theorem c1_push_appends_one_event (st : Store) (R url H now : String) (v : Int)
    (c : GitCommit)
    (hv : getState st ("VERSION_" ++ R) = some (Value.version ⟨R, v⟩))
    (hc : getState st H = some (Value.commit c))
    (hcr : c.Repository = R)
    (hfresh : getState st ("PUSH_" ++ R ++ "_" ++ now) = none) :
    ∃ st' : Store,
      HandleGitPush st R url H now = (.ok (pushMessage url), st') ∧
      getState st' ("PUSH_" ++ R ++ "_" ++ now) =
        some (Value.push ⟨R, url, now, v + 1, H⟩) ∧
      GetRepositoryVersion st' R = .ok ⟨R, v + 1⟩ ∧
      (∀ k p, getState st' k = some (Value.push p) →
        (k = "PUSH_" ++ R ++ "_" ++ now ∧ p = ⟨R, url, now, v + 1, H⟩) ∨
        getState st k = some (Value.push p)) ∧
      (∀ k p, getState st k = some (Value.push p) →
        getState st' k = some (Value.push p)) := by
  have hne : H ≠ "VERSION_" ++ R := by
    intro h
    rw [h, hv] at hc
    cases hc
  refine ⟨_, handleGitPush_ok_eq hv hc hcr, getState_putState_self _ _ _, ?_, ?_, ?_⟩
  · have h2 : getState
        (putState (putState st ("VERSION_" ++ R) (.version ⟨R, v + 1⟩)) H (.commit c))
        ("VERSION_" ++ R) = some (Value.version ⟨R, v + 1⟩) := by
      rw [getState_putState_ne _ _ _ _ (Ne.symm hne), getState_putState_self]
    have h3 : getState
        (putState
          (putState (putState st ("VERSION_" ++ R) (.version ⟨R, v + 1⟩)) H (.commit c))
          ("PUSH_" ++ R ++ "_" ++ now) (.push ⟨R, url, now, v + 1, H⟩))
        ("VERSION_" ++ R) = some (Value.version ⟨R, v + 1⟩) := by
      rw [getState_putState_ne _ _ _ _ (version_key_ne_push_tx_key R R now), h2]
    exact GetRepositoryVersion_eq_of_version h3
  · intro k p hk
    by_cases hkey : k = "PUSH_" ++ R ++ "_" ++ now
    · subst hkey
      rw [getState_putState_self] at hk
      exact Or.inl ⟨rfl, (Value.push.inj (Option.some.inj hk)).symm⟩
    · rw [getState_putState_ne _ _ _ _ hkey] at hk
      have hk1 := putState_pull_push (by intro q h; cases h) hk
      exact Or.inr (putState_pull_push (by intro q h; cases h) hk1)
  · intro k p hk
    have hk1 : k ≠ "VERSION_" ++ R := by
      intro h; rw [h, hv] at hk; cases hk
    have hk2 : k ≠ H := by
      intro h; rw [h, hc] at hk; cases hk
    have hk3 : k ≠ "PUSH_" ++ R ++ "_" ++ now := by
      intro h; rw [h, hfresh] at hk; cases hk
    rw [getState_putState_ne _ _ _ _ hk3, getState_putState_ne _ _ _ _ hk2,
        getState_putState_ne _ _ _ _ hk1]
    exact hk

theorem c1_push_appends_one_event_witness :
    ∃ st' : Store,
      HandleGitPush
          [("VERSION_repo1", Value.version ⟨"repo1", 1⟩),
           ("h1", Value.commit ⟨"h1", "repo1", "m", "Alice", 1, "T0"⟩)]
          "repo1" "http://x/repo1" "h1" "T1" =
        (.ok (pushMessage "http://x/repo1"), st') ∧
      getState st' ("PUSH_" ++ "repo1" ++ "_" ++ "T1") =
        some (Value.push ⟨"repo1", "http://x/repo1", "T1", 1 + 1, "h1"⟩) ∧
      GetRepositoryVersion st' "repo1" = .ok ⟨"repo1", 1 + 1⟩ ∧
      (∀ k p, getState st' k = some (Value.push p) →
        (k = "PUSH_" ++ "repo1" ++ "_" ++ "T1" ∧
         p = ⟨"repo1", "http://x/repo1", "T1", 1 + 1, "h1"⟩) ∨
        getState
          [("VERSION_repo1", Value.version ⟨"repo1", 1⟩),
           ("h1", Value.commit ⟨"h1", "repo1", "m", "Alice", 1, "T0"⟩)] k =
          some (Value.push p)) ∧
      (∀ k p,
        getState
          [("VERSION_repo1", Value.version ⟨"repo1", 1⟩),
           ("h1", Value.commit ⟨"h1", "repo1", "m", "Alice", 1, "T0"⟩)] k =
          some (Value.push p) →
        getState st' k = some (Value.push p)) :=
  c1_push_appends_one_event _ "repo1" "http://x/repo1" "h1" "T1" 1
    ⟨"h1", "repo1", "m", "Alice", 1, "T0"⟩ rfl rfl rfl rfl

theorem handleGitPush_error_no_push {st : Store} {R url H now : String} {e : CCError}
    {st' : Store} (h : HandleGitPush st R url H now = (.error e, st')) :
    ∀ k p, getState st' k = some (Value.push p) → getState st k = some (Value.push p) := by
  cases hgv : GetRepositoryVersion st R with
  | error e0 =>
      have heq : HandleGitPush st R url H now = (.error e0, st) := by
        simp [HandleGitPush, IncrementVersionNumber, hgv]
      rw [heq] at h
      have h2 := congrArg Prod.snd h
      simp only at h2
      subst h2
      exact fun k p hp => hp
  | ok rv =>
      have hinc : IncrementVersionNumber st R =
          (.ok (), putState st ("VERSION_" ++ rv.Repository)
            (.version ⟨rv.Repository, rv.VersionNumber + 1⟩)) := by
        simp [IncrementVersionNumber, hgv, SetRepositoryVersion]
      have pull1 : ∀ k p,
          getState (putState st ("VERSION_" ++ rv.Repository)
            (.version ⟨rv.Repository, rv.VersionNumber + 1⟩)) k = some (Value.push p) →
          getState st k = some (Value.push p) := fun k p hp =>
        putState_pull_push (fun q hq => by cases hq) hp
      cases hsc : getState (putState st ("VERSION_" ++ rv.Repository)
          (.version ⟨rv.Repository, rv.VersionNumber + 1⟩)) H with
      | none =>
          have heq : HandleGitPush st R url H now =
              (.error (.notFound H), putState st ("VERSION_" ++ rv.Repository)
                (.version ⟨rv.Repository, rv.VersionNumber + 1⟩)) := by
            simp [HandleGitPush, hinc, hsc]
          rw [heq] at h
          have h2 := congrArg Prod.snd h
          simp only at h2
          subst h2
          exact pull1
      | some w =>
          by_cases hrep : (asGitCommit w).Repository = R
          · have pull2 : ∀ k p,
                getState (putState (putState st ("VERSION_" ++ rv.Repository)
                    (.version ⟨rv.Repository, rv.VersionNumber + 1⟩)) H
                  (.commit (asGitCommit w))) k = some (Value.push p) →
                getState (putState st ("VERSION_" ++ rv.Repository)
                  (.version ⟨rv.Repository, rv.VersionNumber + 1⟩)) k =
                  some (Value.push p) := fun k p hp =>
              putState_pull_push (fun q hq => by cases hq) hp
            cases hgv2 : GetRepositoryVersion
                (putState (putState st ("VERSION_" ++ rv.Repository)
                    (.version ⟨rv.Repository, rv.VersionNumber + 1⟩)) H
                  (.commit (asGitCommit w))) R with
            | error e2 =>
                have heq : HandleGitPush st R url H now =
                    (.error e2, putState (putState st ("VERSION_" ++ rv.Repository)
                        (.version ⟨rv.Repository, rv.VersionNumber + 1⟩)) H
                      (.commit (asGitCommit w))) := by
                  simp [HandleGitPush, hinc, hsc, hrep, hgv2]
                rw [heq] at h
                have h2 := congrArg Prod.snd h
                simp only at h2
                subst h2
                exact fun k p hp => pull1 k p (pull2 k p hp)
            | ok rv2 =>
                have heq : HandleGitPush st R url H now =
                    (.ok (pushMessage url),
                     putState (putState (putState st ("VERSION_" ++ rv.Repository)
                          (.version ⟨rv.Repository, rv.VersionNumber + 1⟩)) H
                        (.commit (asGitCommit w))) ("PUSH_" ++ R ++ "_" ++ now)
                      (.push ⟨R, url, now, rv2.VersionNumber, H⟩)) := by
                  simp [HandleGitPush, hinc, hsc, hrep, hgv2]
                rw [heq] at h
                have h1 := congrArg Prod.fst h
                simp at h1
          · have heq : HandleGitPush st R url H now =
                (.error (.repoMismatch R (asGitCommit w).Repository),
                 putState st ("VERSION_" ++ rv.Repository)
                   (.version ⟨rv.Repository, rv.VersionNumber + 1⟩)) := by
              simp [HandleGitPush, hinc, hsc, hrep]
            rw [heq] at h
            have h2 := congrArg Prod.snd h
            simp only at h2
            subst h2
            exact pull1

/-- C2: every failing `HandleGitPush` leaves the push records exactly as they
were — no push transaction is written — and in the repository-mismatch case
the failure happens after the version increment has already been issued, so
the returned write set carries the incremented version record. -/
theorem c2_failed_push_no_event (st : Store) (R url H now : String) :
    (∀ (e : CCError) (st' : Store), HandleGitPush st R url H now = (.error e, st') →
      ∀ k p, getState st' k = some (Value.push p) → getState st k = some (Value.push p)) ∧
    (∀ (v : Int) (c : GitCommit),
      getState st ("VERSION_" ++ R) = some (Value.version ⟨R, v⟩) →
      getState st H = some (Value.commit c) →
      c.Repository ≠ R →
      HandleGitPush st R url H now =
        (.error (.repoMismatch R c.Repository),
         putState st ("VERSION_" ++ R) (.version ⟨R, v + 1⟩)) ∧
      getState (putState st ("VERSION_" ++ R) (.version ⟨R, v + 1⟩)) ("VERSION_" ++ R) =
        some (Value.version ⟨R, v + 1⟩)) := by
  constructor
  · intro e st' h
    exact handleGitPush_error_no_push h
  · intro v c hv hc hcr
    have hne : H ≠ "VERSION_" ++ R := by
      intro h
      rw [h, hv] at hc
      cases hc
    have h1 : getState (putState st ("VERSION_" ++ R) (.version ⟨R, v + 1⟩)) H =
        some (Value.commit c) := by
      rw [getState_putState_ne _ _ _ _ hne, hc]
    refine ⟨?_, getState_putState_self _ _ _⟩
    simp [HandleGitPush, increment_eq hv, h1, asGitCommit, hcr]

theorem c2_failed_push_no_event_witness :
    (HandleGitPush
        [("VERSION_r", Value.version ⟨"r", 3⟩),
         ("h1", Value.commit ⟨"h1", "s", "m", "a", 1, "T0"⟩)] "r" "u" "h1" "T" =
      (.error (.repoMismatch "r" "s"),
       putState
         [("VERSION_r", Value.version ⟨"r", 3⟩),
          ("h1", Value.commit ⟨"h1", "s", "m", "a", 1, "T0"⟩)]
         ("VERSION_" ++ "r") (.version ⟨"r", 3 + 1⟩))) ∧
    (∀ k p,
      getState
        (putState
          [("VERSION_r", Value.version ⟨"r", 3⟩),
           ("h1", Value.commit ⟨"h1", "s", "m", "a", 1, "T0"⟩)]
          ("VERSION_" ++ "r") (.version ⟨"r", 3 + 1⟩)) k = some (Value.push p) →
      getState
        [("VERSION_r", Value.version ⟨"r", 3⟩),
         ("h1", Value.commit ⟨"h1", "s", "m", "a", 1, "T0"⟩)] k =
        some (Value.push p)) := by
  have h := (c2_failed_push_no_event
      [("VERSION_r", Value.version ⟨"r", 3⟩),
       ("h1", Value.commit ⟨"h1", "s", "m", "a", 1, "T0"⟩)] "r" "u" "h1" "T").2
      3 ⟨"h1", "s", "m", "a", 1, "T0"⟩ rfl rfl (by decide)
  exact ⟨h.1,
    (c2_failed_push_no_event
      [("VERSION_r", Value.version ⟨"r", 3⟩),
       ("h1", Value.commit ⟨"h1", "s", "m", "a", 1, "T0"⟩)] "r" "u" "h1" "T").1 _ _ h.1⟩

/-- C5: for a previously unseen repository, the first `CreateGitCommit` seeds
the version record at 1 and stamps the commit with 1; a second
`CreateGitCommit` before any push also stamps 1, neither touches the first
commit, and `GetRepositoryVersion` still reports 1 — commit creation never
increments the counter. -/
theorem c5_commit_stamps_without_increment (st : Store)
    (R H1 H2 m1 a1 t1 m2 a2 t2 : String)
    (hv : getState st ("VERSION_" ++ R) = none)
    (h1 : getState st H1 = none) (h2 : getState st H2 = none)
    (h12 : H1 ≠ H2) (hn1 : H1 ≠ "VERSION_" ++ R) (hn2 : H2 ≠ "VERSION_" ++ R) :
    ∃ stA stB : Store,
      CreateGitCommit st H1 R m1 a1 t1 = (.ok (), stA) ∧
      getState stA ("VERSION_" ++ R) = some (Value.version ⟨R, 1⟩) ∧
      getState stA H1 = some (Value.commit ⟨H1, R, m1, a1, 1, t1⟩) ∧
      CreateGitCommit stA H2 R m2 a2 t2 = (.ok (), stB) ∧
      getState stB H1 = some (Value.commit ⟨H1, R, m1, a1, 1, t1⟩) ∧
      getState stB H2 = some (Value.commit ⟨H2, R, m2, a2, 1, t2⟩) ∧
      GetRepositoryVersion stB R = .ok ⟨R, 1⟩ := by
  have hA := create_eq_seed h1 hv (R := R) (m := m1) (a := a1) (t := t1)
  have hAv : getState
      (putState (putState st ("VERSION_" ++ R) (.version ⟨R, 1⟩)) H1
        (.commit ⟨H1, R, m1, a1, 1, t1⟩)) ("VERSION_" ++ R) =
      some (Value.version ⟨R, 1⟩) := by
    rw [getState_putState_ne _ _ _ _ (Ne.symm hn1), getState_putState_self]
  have hA1 : getState
      (putState (putState st ("VERSION_" ++ R) (.version ⟨R, 1⟩)) H1
        (.commit ⟨H1, R, m1, a1, 1, t1⟩)) H1 =
      some (Value.commit ⟨H1, R, m1, a1, 1, t1⟩) := getState_putState_self _ _ _
  have hA2 : getState
      (putState (putState st ("VERSION_" ++ R) (.version ⟨R, 1⟩)) H1
        (.commit ⟨H1, R, m1, a1, 1, t1⟩)) H2 = none := by
    rw [getState_putState_ne _ _ _ _ (Ne.symm h12), getState_putState_ne _ _ _ _ hn2]
    exact h2
  have hB := create_eq_present hA2 hAv (m := m2) (a := a2) (t := t2)
  refine ⟨_, _, hA, hAv, hA1, hB, ?_, getState_putState_self _ _ _, ?_⟩
  · rw [getState_putState_ne _ _ _ _ h12]
    exact hA1
  · have : getState
        (putState
          (putState (putState st ("VERSION_" ++ R) (.version ⟨R, 1⟩)) H1
            (.commit ⟨H1, R, m1, a1, 1, t1⟩)) H2
          (.commit ⟨H2, R, m2, a2, 1, t2⟩)) ("VERSION_" ++ R) =
        some (Value.version ⟨R, 1⟩) := by
      rw [getState_putState_ne _ _ _ _ (Ne.symm hn2)]
      exact hAv
    exact GetRepositoryVersion_eq_of_version this

theorem c5_commit_stamps_without_increment_witness :
    ∃ stA stB : Store,
      CreateGitCommit [] "h1" "repo1" "m1" "Alice" "T1" = (.ok (), stA) ∧
      getState stA ("VERSION_" ++ "repo1") = some (Value.version ⟨"repo1", 1⟩) ∧
      getState stA "h1" = some (Value.commit ⟨"h1", "repo1", "m1", "Alice", 1, "T1"⟩) ∧
      CreateGitCommit stA "h2" "repo1" "m2" "Bob" "T2" = (.ok (), stB) ∧
      getState stB "h1" = some (Value.commit ⟨"h1", "repo1", "m1", "Alice", 1, "T1"⟩) ∧
      getState stB "h2" = some (Value.commit ⟨"h2", "repo1", "m2", "Bob", 1, "T2"⟩) ∧
      GetRepositoryVersion stB "repo1" = .ok ⟨"repo1", 1⟩ :=
  c5_commit_stamps_without_increment [] "repo1" "h1" "h2" "m1" "Alice" "T1" "m2" "Bob" "T2"
    rfl rfl rfl (by decide) (by decide) (by decide)

/-- C10: point lookups do not distinguish record types.  When a version
record for `r` exists, `GitCommitExists` is true at the version key and
`CreateGitCommit` with that key as hash fails with already-exists; when no
version record exists, such a create succeeds and leaves a commit-shaped
value at the very key `GetRepositoryVersion(r)` reads. -/
theorem c10_keyspace_aliasing (st : Store) (r rep m a t : String) :
    (∀ u : RepositoryVersion,
      getState st ("VERSION_" ++ r) = some (Value.version u) →
      GitCommitExists st ("VERSION_" ++ r) = true ∧
      CreateGitCommit st ("VERSION_" ++ r) rep m a t =
        (.error (.alreadyExists ("VERSION_" ++ r)), st)) ∧
    (getState st ("VERSION_" ++ r) = none →
      ∃ st' : Store,
        CreateGitCommit st ("VERSION_" ++ r) r m a t = (.ok (), st') ∧
        getState st' ("VERSION_" ++ r) =
          some (Value.commit ⟨"VERSION_" ++ r, r, m, a, 1, t⟩) ∧
        GetRepositoryVersion st' r = .ok ⟨r, 1⟩) := by
  constructor
  · intro u hu
    refine ⟨by simp [GitCommitExists, hu], ?_⟩
    simp [CreateGitCommit, GitCommitExists, hu]
  · intro hnone
    have hseed := create_eq_seed hnone hnone (m := m) (a := a) (t := t)
    refine ⟨_, hseed, getState_putState_self _ _ _, ?_⟩
    have : getState
        (putState (putState st ("VERSION_" ++ r) (.version ⟨r, 1⟩)) ("VERSION_" ++ r)
          (.commit ⟨"VERSION_" ++ r, r, m, a, 1, t⟩)) ("VERSION_" ++ r) =
        some (Value.commit ⟨"VERSION_" ++ r, r, m, a, 1, t⟩) :=
      getState_putState_self _ _ _
    simp [GetRepositoryVersion, this, asRepositoryVersion]

theorem c10_keyspace_aliasing_witness :
    (GitCommitExists [("VERSION_r", Value.version ⟨"r", 2⟩)] ("VERSION_" ++ "r") = true ∧
     CreateGitCommit [("VERSION_r", Value.version ⟨"r", 2⟩)] ("VERSION_" ++ "r")
         "other" "m" "a" "T" =
       (.error (.alreadyExists ("VERSION_" ++ "r")),
        [("VERSION_r", Value.version ⟨"r", 2⟩)])) ∧
    (∃ st' : Store,
      CreateGitCommit [] ("VERSION_" ++ "r") "r" "m" "a" "T" = (.ok (), st') ∧
      getState st' ("VERSION_" ++ "r") =
        some (Value.commit ⟨"VERSION_" ++ "r", "r", "m", "a", 1, "T"⟩) ∧
      GetRepositoryVersion st' "r" = .ok ⟨"r", 1⟩) :=
  ⟨(c10_keyspace_aliasing [("VERSION_r", Value.version ⟨"r", 2⟩)] "r" "other" "m" "a" "T").1
      ⟨"r", 2⟩ rfl,
   (c10_keyspace_aliasing [] "r" "other" "m" "a" "T").2 rfl⟩

theorem strAppend_assoc (a b c : String) : (a ++ b) ++ c = a ++ (b ++ c) := by
  have h : ((a ++ b) ++ c).data = (a ++ (b ++ c)).data := by
    simp [String.data_append, List.append_assoc]
  exact congrArg String.mk h

theorem push_tx_key_ne_of_not_starts (R now s : String)
    (hnp : strStarts "PUSH_" s = false) : ("PUSH_" ++ R ++ "_" ++ now : String) ≠ s := by
  rw [strAppend_assoc "PUSH_" R "_", strAppend_assoc "PUSH_" (R ++ "_") now]
  exact append_ne_of_not_starts _ hnp

/-- C9 counterexample: on the store holding only the version record for
`"r"`, `HandleGitPush("r", "u", "VERSION_r")` succeeds, yet the stored
record at key `"VERSION_r"` is not identical to its value before the call:
the version record has been replaced by a commit-shaped record with a
bumped version number. -/
theorem c9_counterexample :
    (HandleGitPush [("VERSION_r", Value.version ⟨"r", 1⟩)] "r" "u" "VERSION_r" "T").1 =
      .ok (pushMessage "u") ∧
    getState (HandleGitPush [("VERSION_r", Value.version ⟨"r", 1⟩)]
        "r" "u" "VERSION_r" "T").2 "VERSION_r" =
      some (Value.commit ⟨"", "r", "", "", 2, ""⟩) ∧
    getState [("VERSION_r", Value.version ⟨"r", 1⟩)] "VERSION_r" =
      some (Value.version ⟨"r", 1⟩) ∧
    decide (Value.commit ⟨"", "r", "", "", 2, ""⟩ =
      Value.version (⟨"r", 1⟩ : RepositoryVersion)) = false :=
  ⟨rfl, rfl, rfl, rfl⟩

/-- C9 (amended): when the value stored under `H` is a commit record and `H`
does not lie in the `VERSION_`/`PUSH_` key namespaces, a successful
`HandleGitPush(R, url, H)` leaves the record at `H` identical to its value
before the call: the step-4 rewrite re-stores the same content. -/
theorem c9_rewrite_noop_for_commit_keys (st : Store) (R url H now : String) (c : GitCommit)
    (hc : getState st H = some (Value.commit c))
    (hnv : strStarts "VERSION_" H = false)
    (hnp : strStarts "PUSH_" H = false) :
    ∀ msg st', HandleGitPush st R url H now = (.ok msg, st') →
      getState st' H = some (Value.commit c) := by
  intro msg st' h
  cases hgv : GetRepositoryVersion st R with
  | error e0 =>
      have heq : HandleGitPush st R url H now = (.error e0, st) := by
        simp [HandleGitPush, IncrementVersionNumber, hgv]
      rw [heq] at h
      have h1 := congrArg Prod.fst h
      simp at h1
  | ok rv =>
      have hinc : IncrementVersionNumber st R =
          (.ok (), putState st ("VERSION_" ++ rv.Repository)
            (.version ⟨rv.Repository, rv.VersionNumber + 1⟩)) := by
        simp [IncrementVersionNumber, hgv, SetRepositoryVersion]
      have hH1 : getState (putState st ("VERSION_" ++ rv.Repository)
          (.version ⟨rv.Repository, rv.VersionNumber + 1⟩)) H =
          some (Value.commit c) := by
        rw [getState_putState_ne _ _ _ _ (Ne.symm (append_ne_of_not_starts _ hnv))]
        exact hc
      by_cases hrep : c.Repository = R
      · cases hgv2 : GetRepositoryVersion
            (putState (putState st ("VERSION_" ++ rv.Repository)
                (.version ⟨rv.Repository, rv.VersionNumber + 1⟩)) H (.commit c)) R with
        | error e2 =>
            have heq : HandleGitPush st R url H now =
                (.error e2, putState (putState st ("VERSION_" ++ rv.Repository)
                    (.version ⟨rv.Repository, rv.VersionNumber + 1⟩)) H (.commit c)) := by
              simp [HandleGitPush, hinc, hH1, asGitCommit, hrep, hgv2]
            rw [heq] at h
            have h1 := congrArg Prod.fst h
            simp at h1
        | ok rv2 =>
            have heq : HandleGitPush st R url H now =
                (.ok (pushMessage url),
                 putState (putState (putState st ("VERSION_" ++ rv.Repository)
                      (.version ⟨rv.Repository, rv.VersionNumber + 1⟩)) H (.commit c))
                   ("PUSH_" ++ R ++ "_" ++ now)
                   (.push ⟨R, url, now, rv2.VersionNumber, H⟩)) := by
              simp [HandleGitPush, hinc, hH1, asGitCommit, hrep, hgv2]
            rw [heq] at h
            have h2 := congrArg Prod.snd h
            simp only at h2
            subst h2
            rw [getState_putState_ne _ _ _ _
                  (Ne.symm (push_tx_key_ne_of_not_starts R now H hnp)),
                getState_putState_self]
      · have heq : HandleGitPush st R url H now =
            (.error (.repoMismatch R c.Repository),
             putState st ("VERSION_" ++ rv.Repository)
               (.version ⟨rv.Repository, rv.VersionNumber + 1⟩)) := by
          simp [HandleGitPush, hinc, hH1, asGitCommit, hrep]
        rw [heq] at h
        have h1 := congrArg Prod.fst h
        simp at h1

theorem c9_rewrite_noop_for_commit_keys_witness :
    getState (HandleGitPush
        [("VERSION_repo1", Value.version ⟨"repo1", 1⟩),
         ("h1", Value.commit ⟨"h1", "repo1", "m", "Alice", 1, "T0"⟩)]
        "repo1" "u" "h1" "T1").2 "h1" =
      some (Value.commit ⟨"h1", "repo1", "m", "Alice", 1, "T0"⟩) :=
  c9_rewrite_noop_for_commit_keys
    [("VERSION_repo1", Value.version ⟨"repo1", 1⟩),
     ("h1", Value.commit ⟨"h1", "repo1", "m", "Alice", 1, "T0"⟩)]
    "repo1" "u" "h1" "T1"
    ⟨"h1", "repo1", "m", "Alice", 1, "T0"⟩ rfl rfl rfl
    (pushMessage "u") _ rfl

theorem keyLt_range_split (p : List Char) (t : Char) :
    ∀ l : List Char,
      (!(keyLt l p) && keyLt l (p ++ [t])) =
      (startsWithChars p l && keyLt (dropN p.length l) [t]) := by
  induction p with
  | nil =>
      intro l
      cases l with
      | nil => simp [keyLt, startsWithChars, dropN]
      | cons d ds => simp [keyLt, startsWithChars, dropN]
  | cons c cs ih =>
      intro l
      cases l with
      | nil => simp [keyLt, startsWithChars]
      | cons d ds =>
          by_cases h1 : d < c
          · have hne : ¬(c = d) := by
              intro h
              subst h
              exact absurd h1 (lt_irrefl c)
            simp [keyLt, startsWithChars, h1, hne]
          · by_cases h2 : c < d
            · have hne : ¬(c = d) := ne_of_lt h2
              simp [keyLt, startsWithChars, h1, h2, hne]
            · have hcd : c = d := le_antisymm (not_lt.mp h1) (not_lt.mp h2)
              subst hcd
              simp [keyLt, startsWithChars, dropN, List.cons_append]
              exact ih ds

/-- C7 counterexample: a push transaction recorded for the repository
`"~r"` sits under the key `"PUSH_~r_T"`, which starts with `"PUSH_"`, yet
`GetAllPushTransactions` returns nothing, because the key is not below the
scan's upper bound `"PUSH_~"`. -/
theorem c7_counterexample :
    GetAllPushTransactions [("PUSH_~r_T", Value.push ⟨"~r", "u", "T", 1, "h"⟩)] = [] ∧
    strStarts "PUSH_" "PUSH_~r_T" = true ∧
    getState [("PUSH_~r_T", Value.push ⟨"~r", "u", "T", 1, "h"⟩)] "PUSH_~r_T" =
      some (Value.push ⟨"~r", "u", "T", 1, "h"⟩) :=
  ⟨rfl, rfl, rfl⟩

/-- C7 (amended): `GetAllPushTransactions` returns exactly the stored
records — of whatever shape — whose key starts with `"PUSH_"` followed by a
suffix lexicographically below `"~"`, decoded as push transactions; keys in
the `VERSION_` namespace never fall inside the scanned range. -/
theorem c7_push_scan_range (st : Store) :
    GetAllPushTransactions st =
      (st.filter fun kv =>
        strStarts "PUSH_" kv.1 && keyLt (dropN 5 kv.1.data) ['~']).map
        (fun kv => asPushTransaction kv.2) ∧
    (rangeScan st "PUSH_" "PUSH_~").all
      (fun kv => !(strStarts "VERSION_" kv.1)) = true := by
  constructor
  · unfold GetAllPushTransactions rangeScan
    congr 1
    apply List.filter_congr
    intro kv _
    have h := keyLt_range_split "PUSH_".data '~' kv.1.data
    rw [show ("PUSH_".data ++ ['~']) = ("PUSH_~" : String).data from rfl,
        show ("PUSH_" : String).data.length = 5 from rfl] at h
    simpa [strLt, strStarts,
           show (decide (("PUSH_~" : String) = "")) = false from rfl] using h
  · rw [List.all_eq_true]
    intro kv hkv
    unfold rangeScan at hkv
    rw [List.mem_filter] at hkv
    obtain ⟨-, hpred⟩ := hkv
    rw [Bool.and_eq_true] at hpred
    obtain ⟨-, hub⟩ := hpred
    rw [Bool.or_eq_true] at hub
    rcases hub with hub | hub
    · rw [show (decide (("PUSH_~" : String) = "")) = false from rfl] at hub
      cases hub
    · rw [Bool.not_eq_true']
      by_contra hcon
      rw [Bool.not_eq_false] at hcon
      unfold strStarts at hcon
      unfold strLt at hub
      rw [show ("VERSION_" : String).data = 'V' :: "ERSION_".data from rfl] at hcon
      cases hl : kv.1.data with
      | nil => rw [hl] at hcon; simp [startsWithChars] at hcon
      | cons d ds =>
          rw [hl] at hcon hub
          rw [show startsWithChars ('V' :: "ERSION_".data) (d :: ds) =
                (decide ('V' = d) && startsWithChars "ERSION_".data ds)
              from rfl] at hcon
          rw [Bool.and_eq_true] at hcon
          obtain ⟨hVd, -⟩ := hcon
          have hVd' : 'V' = d := of_decide_eq_true hVd
          subst hVd'
          rw [show ("PUSH_~" : String).data = 'P' :: "USH_~".data from rfl] at hub
          rw [show keyLt ('V' :: ds) ('P' :: "USH_~".data) =
                (if 'V' < 'P' then true
                 else if 'P' < 'V' then false
                 else keyLt ds "USH_~".data)
              from rfl] at hub
          rw [if_neg (by decide), if_pos (by decide)] at hub
          cases hub

theorem keyLt_irrefl : ∀ l : List Char, keyLt l l = false
  | [] => rfl
  | a :: as => by simp [keyLt, keyLt_irrefl as]

theorem keyLt_conn : ∀ a b : List Char,
    keyLt a b = false → keyLt b a = false → a = b
  | [], [], _, _ => rfl
  | [], _ :: _, hab, _ => by simp [keyLt] at hab
  | _ :: _, [], _, hba => by simp [keyLt] at hba
  | x :: xs, y :: ys, hab, hba => by
      simp only [keyLt] at hab hba
      by_cases hxy : x < y
      · rw [if_pos hxy] at hab
        cases hab
      · by_cases hyx : y < x
        · rw [if_pos hyx] at hba
          cases hba
        · have hx : x = y := le_antisymm (not_lt.mp hyx) (not_lt.mp hxy)
          subst hx
          rw [if_neg hxy, if_neg hxy] at hab hba
          rw [keyLt_conn xs ys hab hba]

theorem keyLt_trans : ∀ a b c : List Char,
    keyLt a b = true → keyLt b c = true → keyLt a c = true := by
  intro a
  induction a with
  | nil =>
      intro b c hab hbc
      cases c with
      | nil =>
          cases b with
          | nil => exact hbc
          | cons y ys => simp [keyLt] at hbc
      | cons z zs => simp [keyLt]
  | cons x xs ih =>
      intro b c hab hbc
      cases b with
      | nil => simp [keyLt] at hab
      | cons y ys =>
        cases c with
        | nil => simp [keyLt] at hbc
        | cons z zs =>
          simp only [keyLt] at hab hbc ⊢
          by_cases hxy : x < y
          · by_cases hyz : y < z
            · rw [if_pos (lt_trans hxy hyz)]
            · by_cases hzy : z < y
              · rw [if_neg hyz, if_pos hzy] at hbc
                cases hbc
              · have hy : y = z := le_antisymm (not_lt.mp hzy) (not_lt.mp hyz)
                subst hy
                rw [if_pos hxy]
          · by_cases hyx : y < x
            · rw [if_neg hxy, if_pos hyx] at hab
              cases hab
            · have hx : x = y := le_antisymm (not_lt.mp hyx) (not_lt.mp hxy)
              subst hx
              rw [if_neg hxy, if_neg hxy] at hab
              by_cases hxz : x < z
              · rw [if_pos hxz]
              · by_cases hzx : z < x
                · rw [if_neg hxz, if_pos hzx] at hbc
                  cases hbc
                · rw [if_neg hxz, if_neg hzx] at hbc ⊢
                  exact ih ys zs hab hbc

theorem strLt_irrefl (a : String) : strLt a a = false := keyLt_irrefl a.data

theorem strLt_trans {a b c : String} (h1 : strLt a b = true) (h2 : strLt b c = true) :
    strLt a c = true := keyLt_trans a.data b.data c.data h1 h2

theorem strLt_of_not_of_ne {a b : String} (h1 : ¬ strLt a b = true) (h2 : a ≠ b) :
    strLt b a = true := by
  cases hba : strLt b a
  · exact absurd (congrArg String.mk
      (keyLt_conn a.data b.data (Bool.not_eq_true _ ▸ Bool.of_not_eq_true h1) hba)) h2
  · rfl

theorem sortedB_cons {k₀ : String} {v₀ : Value} {rest : Store}
    (h : sortedB ((k₀, v₀) :: rest) = true) :
    sortedB rest = true ∧ ∀ kv ∈ rest, strLt k₀ kv.1 = true := by
  induction rest generalizing k₀ v₀ with
  | nil => exact ⟨rfl, by simp⟩
  | cons kv₁ rest' ih =>
      obtain ⟨k₁, v₁⟩ := kv₁
      rw [show sortedB ((k₀, v₀) :: (k₁, v₁) :: rest') =
            (strLt k₀ k₁ && sortedB ((k₁, v₁) :: rest')) from rfl,
          Bool.and_eq_true] at h
      obtain ⟨h01, hrest⟩ := h
      refine ⟨hrest, ?_⟩
      intro kv hkv
      rcases List.mem_cons.mp hkv with rfl | hkv'
      · exact h01
      · exact strLt_trans h01 ((ih hrest).2 kv hkv')

theorem sortedB_cons_of (k₀ : String) (v₀ : Value) (rest : Store)
    (hrest : sortedB rest = true)
    (hall : ∀ kv ∈ rest, strLt k₀ kv.1 = true) :
    sortedB ((k₀, v₀) :: rest) = true := by
  cases rest with
  | nil => rfl
  | cons kv₁ rest' =>
      obtain ⟨k₁, v₁⟩ := kv₁
      rw [show sortedB ((k₀, v₀) :: (k₁, v₁) :: rest') =
            (strLt k₀ k₁ && sortedB ((k₁, v₁) :: rest')) from rfl,
          Bool.and_eq_true]
      exact ⟨hall (k₁, v₁) (List.mem_cons_self _ _), hrest⟩

theorem putState_mem : ∀ (st : Store) (k : String) (v : Value) (kv : String × Value),
    kv ∈ putState st k v → kv = (k, v) ∨ kv ∈ st := by
  intro st k v
  induction st with
  | nil =>
      intro kv h
      simp [putState] at h
      exact Or.inl h
  | cons kv₀ rest ih =>
      obtain ⟨k₀, v₀⟩ := kv₀
      intro kv h
      simp only [putState] at h
      by_cases h1 : strLt k k₀
      · rw [if_pos h1] at h
        rcases List.mem_cons.mp h with rfl | h'
        · exact Or.inl rfl
        · exact Or.inr h'
      · rw [if_neg h1] at h
        by_cases h2 : k = k₀
        · rw [if_pos h2] at h
          rcases List.mem_cons.mp h with rfl | h'
          · exact Or.inl rfl
          · exact Or.inr (List.mem_cons_of_mem _ h')
        · rw [if_neg h2] at h
          rcases List.mem_cons.mp h with rfl | h'
          · exact Or.inr (List.mem_cons_self _ _)
          · rcases ih kv h' with h'' | h''
            · exact Or.inl h''
            · exact Or.inr (List.mem_cons_of_mem _ h'')

theorem putState_sortedB {st : Store} (hs : sortedB st = true) (k : String) (v : Value) :
    sortedB (putState st k v) = true := by
  induction st with
  | nil => rfl
  | cons kv₀ rest ih =>
      obtain ⟨k₀, v₀⟩ := kv₀
      obtain ⟨hrest, hall⟩ := sortedB_cons hs
      simp only [putState]
      by_cases h1 : strLt k k₀
      · rw [if_pos h1]
        refine sortedB_cons_of _ _ _ hs ?_
        intro kv hkv
        rcases List.mem_cons.mp hkv with rfl | hkv'
        · exact h1
        · exact strLt_trans h1 (hall kv hkv')
      · rw [if_neg h1]
        by_cases h2 : k = k₀
        · rw [if_pos h2]
          subst h2
          exact sortedB_cons_of _ _ _ hrest hall
        · rw [if_neg h2]
          have hk₀k : strLt k₀ k = true := strLt_of_not_of_ne h1 h2
          refine sortedB_cons_of _ _ _ (ih hrest) ?_
          intro kv hkv
          rcases putState_mem rest k v kv hkv with rfl | hkv'
          · exact hk₀k
          · exact hall kv hkv'

theorem putState_all {P : String × Value → Bool} {st : Store}
    (h : st.all P = true) {k : String} {v : Value} (hkv : P (k, v) = true) :
    (putState st k v).all P = true := by
  induction st with
  | nil => simp [putState, hkv]
  | cons kv₀ rest ih =>
      obtain ⟨k₀, v₀⟩ := kv₀
      rw [List.all_cons, Bool.and_eq_true] at h
      obtain ⟨h₀, hrest⟩ := h
      simp only [putState]
      by_cases h1 : strLt k k₀
      · rw [if_pos h1]
        simp [List.all_cons, hkv, h₀, hrest]
      · rw [if_neg h1]
        by_cases h2 : k = k₀
        · rw [if_pos h2]
          simp [List.all_cons, hkv, hrest]
        · rw [if_neg h2]
          simp [List.all_cons, h₀, ih hrest]

theorem wf_mem {st : Store} (hwf : wfStoreB st = true) {k : String} {v : Value}
    (h : (k, v) ∈ st) : k = keyOf v := by
  rw [wfStoreB, List.all_eq_true] at hwf
  have := hwf _ h
  rw [Bool.and_eq_true] at this
  exact eq_of_beq this.1

theorem wf_mem_commit {st : Store} (hwf : wfStoreB st = true) {k : String} {c : GitCommit}
    (h : (k, Value.commit c) ∈ st) :
    strStarts "VERSION_" c.CommitHash = false ∧ strStarts "PUSH_" c.CommitHash = false := by
  rw [wfStoreB, List.all_eq_true] at hwf
  have := hwf _ h
  rw [Bool.and_eq_true] at this
  have h2 := this.2
  simp only [Bool.and_eq_true, Bool.not_eq_true'] at h2
  exact h2

theorem wf_version_at {st : Store} (hwf : wfStoreB st = true) {R : String} {u : Value}
    (h : getState st ("VERSION_" ++ R) = some u) :
    ∃ n : Int, u = Value.version ⟨R, n⟩ := by
  have hk := wf_mem hwf (getState_mem h)
  cases u with
  | version w =>
      obtain ⟨wr, wn⟩ := w
      have : R = wr := version_key_inj hk
      exact ⟨wn, by rw [this]⟩
  | commit c =>
      have hpre := (wf_mem_commit hwf (getState_mem h)).1
      have hTrue : strStarts "VERSION_" c.CommitHash = true := by
        rw [show keyOf (Value.commit c) = c.CommitHash from rfl] at hk
        rw [← hk]
        exact strStarts_of_append "VERSION_" R
      rw [hpre] at hTrue
      cases hTrue
  | push p =>
      exact absurd hk (version_key_ne_push_tx_key R p.repository p.timestamp)

theorem versionMono_refl (st : Store) : versionMono st st := by
  intro k u u' h h'
  have := h.symm.trans h'
  simp only [Option.some.injEq, Value.version.injEq] at this
  exact le_of_eq (by rw [this])

theorem versionFresh1_refl (st : Store) : versionFresh1 st st := by
  intro k u' h h'
  rw [h] at h'
  cases h'

theorem versionMono_pull {st st₁ st₂ : Store} (hm : versionMono st st₁)
    (hp : ∀ k u', getState st₂ k = some (Value.version u') →
      getState st₁ k = some (Value.version u')) :
    versionMono st st₂ :=
  fun k u u' h h' => hm k u u' h (hp k u' h')

theorem versionFresh1_pull {st st₁ st₂ : Store} (hf : versionFresh1 st st₁)
    (hp : ∀ k u', getState st₂ k = some (Value.version u') →
      getState st₁ k = some (Value.version u')) :
    versionFresh1 st st₂ :=
  fun k u' h h' => hf k u' h (hp k u' h')

/-- The increment write — same key, value one higher — respects monotonicity
and creates nothing at an empty key. -/
theorem inc_write_mono {st : Store} {R : String} {n : Int}
    (hg : getState st ("VERSION_" ++ R) = some (Value.version ⟨R, n⟩)) :
    versionMono st (putState st ("VERSION_" ++ R) (.version ⟨R, n + 1⟩)) ∧
    versionFresh1 st (putState st ("VERSION_" ++ R) (.version ⟨R, n + 1⟩)) := by
  constructor
  · intro k u u' h h'
    rw [getState_putState] at h'
    by_cases hk : k = "VERSION_" ++ R
    · rw [if_pos hk] at h'
      rw [hk, hg] at h
      simp only [Option.some.injEq, Value.version.injEq] at h h'
      rw [← h, ← h']
      show n ≤ n + 1
      omega
    · rw [if_neg hk] at h'
      have := h.symm.trans h'
      simp only [Option.some.injEq, Value.version.injEq] at this
      exact le_of_eq (by rw [this])
  · intro k u' h h'
    rw [getState_putState] at h'
    by_cases hk : k = "VERSION_" ++ R
    · rw [hk, hg] at h
      cases h
    · rw [if_neg hk] at h'
      rw [h] at h'
      cases h'

theorem increment_mono {st : Store} (hwf : wfStoreB st = true) (R : String) :
    versionMono st (IncrementVersionNumber st R).2 ∧
    versionFresh1 st (IncrementVersionNumber st R).2 := by
  cases hg : getState st ("VERSION_" ++ R) with
  | none =>
      rw [increment_eq_none hg]
      exact ⟨versionMono_refl st, versionFresh1_refl st⟩
  | some u =>
      obtain ⟨n, rfl⟩ := wf_version_at hwf hg
      rw [increment_eq hg]
      exact inc_write_mono hg

theorem create_mono (st : Store) (H R m a t : String) :
    versionMono st (CreateGitCommit st H R m a t).2 ∧
    versionFresh1 st (CreateGitCommit st H R m a t).2 := by
  by_cases hex : GitCommitExists st H
  · rw [show CreateGitCommit st H R m a t = (.error (.alreadyExists H), st) from by
      simp [CreateGitCommit, hex]]
    exact ⟨versionMono_refl st, versionFresh1_refl st⟩
  · have hH : getState st H = none := by
      rw [GitCommitExists] at hex
      exact Option.not_isSome_iff_eq_none.mp hex
    cases hg : getState st ("VERSION_" ++ R) with
    | some u =>
        have heq : CreateGitCommit st H R m a t =
            (.ok (), putState st H
              (.commit ⟨H, R, m, a, (asRepositoryVersion u).VersionNumber, t⟩)) := by
          simp [CreateGitCommit, GitCommitExists, hH, GetRepositoryVersion, hg]
        rw [heq]
        have hp : ∀ k u', getState (putState st H
            (.commit ⟨H, R, m, a, (asRepositoryVersion u).VersionNumber, t⟩)) k =
              some (Value.version u') → getState st k = some (Value.version u') :=
          fun k u' h' => putState_pull_version (fun q hq => by cases hq) h'
        exact ⟨versionMono_pull (versionMono_refl st) hp,
               versionFresh1_pull (versionFresh1_refl st) hp⟩
    | none =>
        rw [create_eq_seed hH hg]
        constructor
        · intro k u u' h h'
          have h'' := putState_pull_version (fun q hq => by cases hq) h'
          rw [getState_putState] at h''
          by_cases hk : k = "VERSION_" ++ R
          · rw [hk, hg] at h
            cases h
          · rw [if_neg hk] at h''
            have := h.symm.trans h''
            simp only [Option.some.injEq, Value.version.injEq] at this
            exact le_of_eq (by rw [this])
        · intro k u' h h'
          have h'' := putState_pull_version (fun q hq => by cases hq) h'
          rw [getState_putState] at h''
          by_cases hk : k = "VERSION_" ++ R
          · rw [if_pos hk] at h''
            have : u' = ⟨R, 1⟩ := by
              simpa using h''.symm
            rw [this]
          · rw [if_neg hk] at h''
            rw [h] at h''
            cases h''

theorem handlePush_mono {st : Store} (hwf : wfStoreB st = true) (R url H now : String) :
    versionMono st (HandleGitPush st R url H now).2 ∧
    versionFresh1 st (HandleGitPush st R url H now).2 := by
  cases hg : getState st ("VERSION_" ++ R) with
  | none =>
      have heq : HandleGitPush st R url H now = (.error (.noVersion R), st) := by
        simp [HandleGitPush, increment_eq_none hg]
      rw [heq]
      exact ⟨versionMono_refl st, versionFresh1_refl st⟩
  | some u =>
      obtain ⟨n, rfl⟩ := wf_version_at hwf hg
      have hincmono := inc_write_mono hg
      have hinc := increment_eq hg
      cases hsc : getState (putState st ("VERSION_" ++ R) (.version ⟨R, n + 1⟩)) H with
      | none =>
          have heq : HandleGitPush st R url H now =
              (.error (.notFound H),
               putState st ("VERSION_" ++ R) (.version ⟨R, n + 1⟩)) := by
            simp [HandleGitPush, hinc, hsc]
          rw [heq]
          exact hincmono
      | some w =>
          by_cases hrep : (asGitCommit w).Repository = R
          · have hp2 : ∀ k u',
                getState (putState (putState st ("VERSION_" ++ R) (.version ⟨R, n + 1⟩)) H
                  (.commit (asGitCommit w))) k = some (Value.version u') →
                getState (putState st ("VERSION_" ++ R) (.version ⟨R, n + 1⟩)) k =
                  some (Value.version u') :=
              fun k u' h' => putState_pull_version (fun q hq => by cases hq) h'
            cases hgv2 : GetRepositoryVersion
                (putState (putState st ("VERSION_" ++ R) (.version ⟨R, n + 1⟩)) H
                  (.commit (asGitCommit w))) R with
            | error e2 =>
                have heq : HandleGitPush st R url H now =
                    (.error e2,
                     putState (putState st ("VERSION_" ++ R) (.version ⟨R, n + 1⟩)) H
                       (.commit (asGitCommit w))) := by
                  simp [HandleGitPush, hinc, hsc, hrep, hgv2]
                rw [heq]
                exact ⟨versionMono_pull hincmono.1 hp2, versionFresh1_pull hincmono.2 hp2⟩
            | ok rv2 =>
                have heq : HandleGitPush st R url H now =
                    (.ok (pushMessage url),
                     putState (putState (putState st ("VERSION_" ++ R)
                          (.version ⟨R, n + 1⟩)) H (.commit (asGitCommit w)))
                       ("PUSH_" ++ R ++ "_" ++ now)
                       (.push ⟨R, url, now, rv2.VersionNumber, H⟩)) := by
                  simp [HandleGitPush, hinc, hsc, hrep, hgv2]
                rw [heq]
                have hp3 : ∀ k u',
                    getState (putState (putState (putState st ("VERSION_" ++ R)
                        (.version ⟨R, n + 1⟩)) H (.commit (asGitCommit w)))
                      ("PUSH_" ++ R ++ "_" ++ now)
                      (.push ⟨R, url, now, rv2.VersionNumber, H⟩)) k =
                      some (Value.version u') →
                    getState (putState st ("VERSION_" ++ R) (.version ⟨R, n + 1⟩)) k =
                      some (Value.version u') :=
                  fun k u' h' =>
                    hp2 k u' (putState_pull_version (fun q hq => by cases hq) h')
                exact ⟨versionMono_pull hincmono.1 hp3, versionFresh1_pull hincmono.2 hp3⟩
          · have heq : HandleGitPush st R url H now =
                (.error (.repoMismatch R (asGitCommit w).Repository),
                 putState st ("VERSION_" ++ R) (.version ⟨R, n + 1⟩)) := by
              simp [HandleGitPush, hinc, hsc, hrep]
            rw [heq]
            exact hincmono

theorem versionCount_le_one {st : Store} (hs : sortedB st = true)
    (hwf : wfStoreB st = true) (r : String) : versionCount st r ≤ 1 := by
  induction st with
  | nil => simp [versionCount]
  | cons kv rest ih =>
      obtain ⟨k₀, v₀⟩ := kv
      obtain ⟨hrest, hall⟩ := sortedB_cons hs
      have hwf_rest : wfStoreB rest = true := by
        rw [wfStoreB, List.all_cons, Bool.and_eq_true] at hwf
        exact hwf.2
      cases v₀ with
      | commit c =>
          have hstep : versionCount ((k₀, Value.commit c) :: rest) r =
              versionCount rest r := by
            simp [versionCount, List.filter]
          rw [hstep]
          exact ih hrest hwf_rest
      | push p =>
          have hstep : versionCount ((k₀, Value.push p) :: rest) r =
              versionCount rest r := by
            simp [versionCount, List.filter]
          rw [hstep]
          exact ih hrest hwf_rest
      | version u =>
          by_cases hur : u.Repository = r
          · have hk₀ : k₀ = "VERSION_" ++ r := by
              have hco := wf_mem hwf (List.mem_cons_self _ _)
              rw [show keyOf (Value.version u) = "VERSION_" ++ u.Repository from rfl,
                  hur] at hco
              exact hco
            have hzero : versionCount rest r = 0 := by
              rw [versionCount, List.length_eq_zero, List.filter_eq_nil_iff]
              intro kv hkv hmatch
              obtain ⟨k₁, v₁⟩ := kv
              cases v₁ with
              | commit c => simp at hmatch
              | push p => simp at hmatch
              | version u' =>
                  have hur' : u'.Repository = r := eq_of_beq (by simpa using hmatch)
                  have hk₁ : k₁ = "VERSION_" ++ r := by
                    have hco := wf_mem hwf_rest hkv
                    rw [show keyOf (Value.version u') = "VERSION_" ++ u'.Repository
                          from rfl, hur'] at hco
                    exact hco
                  have hl := hall (k₁, Value.version u') hkv
                  rw [hk₀, hk₁, strLt_irrefl] at hl
                  cases hl
            have hstep : versionCount ((k₀, Value.version u) :: rest) r =
                versionCount rest r + 1 := by
              simp [versionCount, List.filter, hur]
            rw [hstep, hzero]
          · have hbeq : (u.Repository == r) = false := beq_eq_false_iff_ne.mpr hur
            have hstep : versionCount ((k₀, Value.version u) :: rest) r =
                versionCount rest r := by
              simp [versionCount, List.filter, hbeq]
            rw [hstep]
            exact ih hrest hwf_rest

theorem setVersion_wf {st : Store} (hwf : wfStoreB st = true) (rv : RepositoryVersion) :
    wfStoreB (SetRepositoryVersion st rv) = true := by
  rw [SetRepositoryVersion, wfStoreB]
  exact putState_all hwf (by simp [keyOf])

theorem setVersion_sortedB {st : Store} (hs : sortedB st = true) (rv : RepositoryVersion) :
    sortedB (SetRepositoryVersion st rv) = true :=
  putState_sortedB hs _ _

/-- C8 counterexample: `SetRepositoryVersion`'s unconditional overwrite
takes a stored version number from 5 down to 3, and as a first write for a
repository it stores version number 7 instead of 1, so the invariant is not
preserved by every exposed mutating operation. -/
theorem c8_counterexample :
    getState [("VERSION_r", Value.version ⟨"r", 5⟩)] ("VERSION_" ++ "r") =
      some (Value.version ⟨"r", 5⟩) ∧
    getState (SetRepositoryVersion [("VERSION_r", Value.version ⟨"r", 5⟩)] ⟨"r", 3⟩)
        ("VERSION_" ++ "r") = some (Value.version ⟨"r", 3⟩) ∧
    (3 : Int) < 5 ∧
    getState ([] : Store) ("VERSION_" ++ "r") = none ∧
    getState (SetRepositoryVersion [] ⟨"r", 7⟩) ("VERSION_" ++ "r") =
      some (Value.version ⟨"r", 7⟩) ∧
    (1 : Int) < 7 :=
  ⟨rfl, rfl, by decide, rfl, rfl, by decide⟩

theorem wf_versionCanonical {st : Store} (hwf : wfStoreB st = true) :
    versionCanonical st := by
  intro k u hmem
  have hk := wf_mem hwf hmem
  rw [show keyOf (Value.version u) = "VERSION_" ++ u.Repository from rfl] at hk
  exact hk

theorem versionCanonical_putState_nonversion {st : Store} (hc : versionCanonical st)
    {k : String} {v : Value} (hv : ∀ q, v ≠ Value.version q) :
    versionCanonical (putState st k v) := by
  intro k' u hmem
  rcases putState_mem st k v _ hmem with heq | hmem'
  · obtain ⟨-, h2⟩ := Prod.ext_iff.mp heq
    exact absurd h2.symm (hv u)
  · exact hc k' u hmem'

theorem versionCanonical_putState_version {st : Store} (hc : versionCanonical st)
    (u : RepositoryVersion) :
    versionCanonical (putState st ("VERSION_" ++ u.Repository) (.version u)) := by
  intro k' w hmem
  rcases putState_mem st _ _ _ hmem with heq | hmem'
  · have h1 : k' = "VERSION_" ++ u.Repository := congrArg Prod.fst heq
    have h2 : Value.version w = Value.version u := congrArg Prod.snd heq
    rw [h1, Value.version.inj h2]
  · exact hc k' w hmem'

theorem versionCount_le_one_of {st : Store} (hs : sortedB st = true)
    (hc : versionCanonical st) (r : String) : versionCount st r ≤ 1 := by
  induction st with
  | nil => simp [versionCount]
  | cons kv rest ih =>
      obtain ⟨k₀, v₀⟩ := kv
      obtain ⟨hrest, hall⟩ := sortedB_cons hs
      have hc_rest : versionCanonical rest :=
        fun k u hmem => hc k u (List.mem_cons_of_mem _ hmem)
      cases v₀ with
      | commit c =>
          have hstep : versionCount ((k₀, Value.commit c) :: rest) r =
              versionCount rest r := by
            simp [versionCount, List.filter]
          rw [hstep]
          exact ih hrest hc_rest
      | push p =>
          have hstep : versionCount ((k₀, Value.push p) :: rest) r =
              versionCount rest r := by
            simp [versionCount, List.filter]
          rw [hstep]
          exact ih hrest hc_rest
      | version u =>
          by_cases hur : u.Repository = r
          · have hk₀ : k₀ = "VERSION_" ++ r := by
              have hco := hc k₀ u (List.mem_cons_self _ _)
              rw [hur] at hco
              exact hco
            have hzero : versionCount rest r = 0 := by
              rw [versionCount, List.length_eq_zero, List.filter_eq_nil_iff]
              intro kv hkv hmatch
              obtain ⟨k₁, v₁⟩ := kv
              cases v₁ with
              | commit c => simp at hmatch
              | push p => simp at hmatch
              | version u' =>
                  have hur' : u'.Repository = r := eq_of_beq (by simpa using hmatch)
                  have hk₁ : k₁ = "VERSION_" ++ r := by
                    have hco := hc_rest k₁ u' hkv
                    rw [hur'] at hco
                    exact hco
                  have hl := hall (k₁, Value.version u') hkv
                  rw [hk₀, hk₁, strLt_irrefl] at hl
                  cases hl
            have hstep : versionCount ((k₀, Value.version u) :: rest) r =
                versionCount rest r + 1 := by
              simp [versionCount, List.filter, hur]
            rw [hstep, hzero]
          · have hbeq : (u.Repository == r) = false := beq_eq_false_iff_ne.mpr hur
            have hstep : versionCount ((k₀, Value.version u) :: rest) r =
                versionCount rest r := by
              simp [versionCount, List.filter, hbeq]
            rw [hstep]
            exact ih hrest hc_rest

theorem create_sorted_canonical (st : Store) (H R m a t : String)
    (hs : sortedB st = true) (hc : versionCanonical st) :
    sortedB (CreateGitCommit st H R m a t).2 = true ∧
    versionCanonical (CreateGitCommit st H R m a t).2 := by
  by_cases hex : GitCommitExists st H
  · rw [show CreateGitCommit st H R m a t = (.error (.alreadyExists H), st) from by
      simp [CreateGitCommit, hex]]
    exact ⟨hs, hc⟩
  · have hH : getState st H = none := by
      rw [GitCommitExists] at hex
      exact Option.not_isSome_iff_eq_none.mp hex
    cases hg : getState st ("VERSION_" ++ R) with
    | some u =>
        have heq : CreateGitCommit st H R m a t =
            (.ok (), putState st H
              (.commit ⟨H, R, m, a, (asRepositoryVersion u).VersionNumber, t⟩)) := by
          simp [CreateGitCommit, GitCommitExists, hH, GetRepositoryVersion, hg]
        rw [heq]
        exact ⟨putState_sortedB hs _ _,
               versionCanonical_putState_nonversion hc (fun q hq => by cases hq)⟩
    | none =>
        rw [create_eq_seed hH hg]
        have h1 : versionCanonical (putState st ("VERSION_" ++ R) (.version ⟨R, 1⟩)) :=
          versionCanonical_putState_version hc ⟨R, 1⟩
        exact ⟨putState_sortedB (putState_sortedB hs _ _) _ _,
               versionCanonical_putState_nonversion h1 (fun q hq => by cases hq)⟩

theorem increment_sorted_canonical {st : Store} (hs : sortedB st = true)
    (hc : versionCanonical st) (R : String) :
    sortedB (IncrementVersionNumber st R).2 = true ∧
    versionCanonical (IncrementVersionNumber st R).2 := by
  cases hg : GetRepositoryVersion st R with
  | error e =>
      rw [show IncrementVersionNumber st R = (.error e, st) from by
        simp [IncrementVersionNumber, hg]]
      exact ⟨hs, hc⟩
  | ok rv =>
      have heq : IncrementVersionNumber st R =
          (.ok (), putState st ("VERSION_" ++ rv.Repository)
            (.version ⟨rv.Repository, rv.VersionNumber + 1⟩)) := by
        simp [IncrementVersionNumber, hg, SetRepositoryVersion]
      rw [heq]
      exact ⟨putState_sortedB hs _ _,
             versionCanonical_putState_version hc ⟨rv.Repository, rv.VersionNumber + 1⟩⟩

theorem handlePush_sorted_canonical {st : Store} (hs : sortedB st = true)
    (hc : versionCanonical st) (R url H now : String) :
    sortedB (HandleGitPush st R url H now).2 = true ∧
    versionCanonical (HandleGitPush st R url H now).2 := by
  cases hg : GetRepositoryVersion st R with
  | error e =>
      rw [show HandleGitPush st R url H now = (.error e, st) from by
        simp [HandleGitPush, IncrementVersionNumber, hg]]
      exact ⟨hs, hc⟩
  | ok rv =>
      have hinc : IncrementVersionNumber st R =
          (.ok (), putState st ("VERSION_" ++ rv.Repository)
            (.version ⟨rv.Repository, rv.VersionNumber + 1⟩)) := by
        simp [IncrementVersionNumber, hg, SetRepositoryVersion]
      have hs1 : sortedB (putState st ("VERSION_" ++ rv.Repository)
          (.version ⟨rv.Repository, rv.VersionNumber + 1⟩)) = true :=
        putState_sortedB hs _ _
      have hc1 : versionCanonical (putState st ("VERSION_" ++ rv.Repository)
          (.version ⟨rv.Repository, rv.VersionNumber + 1⟩)) :=
        versionCanonical_putState_version hc ⟨rv.Repository, rv.VersionNumber + 1⟩
      cases hsc : getState (putState st ("VERSION_" ++ rv.Repository)
          (.version ⟨rv.Repository, rv.VersionNumber + 1⟩)) H with
      | none =>
          have heq : HandleGitPush st R url H now =
              (.error (.notFound H),
               putState st ("VERSION_" ++ rv.Repository)
                 (.version ⟨rv.Repository, rv.VersionNumber + 1⟩)) := by
            simp [HandleGitPush, hinc, hsc]
          rw [heq]
          exact ⟨hs1, hc1⟩
      | some w =>
          by_cases hrep : (asGitCommit w).Repository = R
          · have hs2 : sortedB (putState (putState st ("VERSION_" ++ rv.Repository)
                (.version ⟨rv.Repository, rv.VersionNumber + 1⟩)) H
                (.commit (asGitCommit w))) = true := putState_sortedB hs1 _ _
            have hc2 : versionCanonical (putState (putState st
                ("VERSION_" ++ rv.Repository)
                  (.version ⟨rv.Repository, rv.VersionNumber + 1⟩)) H
                (.commit (asGitCommit w))) :=
              versionCanonical_putState_nonversion hc1 (fun q hq => by cases hq)
            cases hgv2 : GetRepositoryVersion
                (putState (putState st ("VERSION_" ++ rv.Repository)
                    (.version ⟨rv.Repository, rv.VersionNumber + 1⟩)) H
                  (.commit (asGitCommit w))) R with
            | error e2 =>
                have heq : HandleGitPush st R url H now =
                    (.error e2,
                     putState (putState st ("VERSION_" ++ rv.Repository)
                         (.version ⟨rv.Repository, rv.VersionNumber + 1⟩)) H
                       (.commit (asGitCommit w))) := by
                  simp [HandleGitPush, hinc, hsc, hrep, hgv2]
                rw [heq]
                exact ⟨hs2, hc2⟩
            | ok rv2 =>
                have heq : HandleGitPush st R url H now =
                    (.ok (pushMessage url),
                     putState (putState (putState st ("VERSION_" ++ rv.Repository)
                          (.version ⟨rv.Repository, rv.VersionNumber + 1⟩)) H
                        (.commit (asGitCommit w))) ("PUSH_" ++ R ++ "_" ++ now)
                       (.push ⟨R, url, now, rv2.VersionNumber, H⟩)) := by
                  simp [HandleGitPush, hinc, hsc, hrep, hgv2]
                rw [heq]
                exact ⟨putState_sortedB hs2 _ _,
                       versionCanonical_putState_nonversion hc2 (fun q hq => by cases hq)⟩
          · have heq : HandleGitPush st R url H now =
                (.error (.repoMismatch R (asGitCommit w).Repository),
                 putState st ("VERSION_" ++ rv.Repository)
                   (.version ⟨rv.Repository, rv.VersionNumber + 1⟩)) := by
              simp [HandleGitPush, hinc, hsc, hrep]
            rw [heq]
            exact ⟨hs1, hc1⟩

/-- C8 (amended): commit creation, version increment and push handling each
preserve the version-record invariant — stored version numbers never
decrease and a version record first appears with value 1 — the two
counter-touching operations on canonically keyed stores; and every
operation, `SetRepositoryVersion`'s unconditional overwrite included, keeps
at most one version record per repository on sorted canonically keyed
stores.  `SetRepositoryVersion` itself does not preserve monotonicity or
the first-write-is-1 property. -/
theorem c8_version_invariant_amended :
    (∀ (st : Store) (H R m a t : String),
       versionMono st (CreateGitCommit st H R m a t).2 ∧
       versionFresh1 st (CreateGitCommit st H R m a t).2) ∧
    (∀ (st : Store) (R : String), wfStoreB st = true →
       versionMono st (IncrementVersionNumber st R).2 ∧
       versionFresh1 st (IncrementVersionNumber st R).2) ∧
    (∀ (st : Store) (R url H now : String), wfStoreB st = true →
       versionMono st (HandleGitPush st R url H now).2 ∧
       versionFresh1 st (HandleGitPush st R url H now).2) ∧
    (∀ (st : Store) (H R m a t r : String),
       sortedB st = true → wfStoreB st = true →
       versionCount (CreateGitCommit st H R m a t).2 r ≤ 1) ∧
    (∀ (st : Store) (R r : String), sortedB st = true → wfStoreB st = true →
       versionCount (IncrementVersionNumber st R).2 r ≤ 1) ∧
    (∀ (st : Store) (R url H now r : String),
       sortedB st = true → wfStoreB st = true →
       versionCount (HandleGitPush st R url H now).2 r ≤ 1) ∧
    (∀ (st : Store) (rv : RepositoryVersion) (r : String),
       sortedB st = true → wfStoreB st = true →
       versionCount (SetRepositoryVersion st rv) r ≤ 1) :=
  ⟨fun st H R m a t => create_mono st H R m a t,
   fun _ R hwf => increment_mono hwf R,
   fun _ R url H now hwf => handlePush_mono hwf R url H now,
   fun st H R m a t r hs hwf =>
     (create_sorted_canonical st H R m a t hs (wf_versionCanonical hwf)).elim
       (fun h1 h2 => versionCount_le_one_of h1 h2 r),
   fun _ R r hs hwf =>
     (increment_sorted_canonical hs (wf_versionCanonical hwf) R).elim
       (fun h1 h2 => versionCount_le_one_of h1 h2 r),
   fun _ R url H now r hs hwf =>
     (handlePush_sorted_canonical hs (wf_versionCanonical hwf) R url H now).elim
       (fun h1 h2 => versionCount_le_one_of h1 h2 r),
   fun _ rv r hs hwf =>
     versionCount_le_one_of (setVersion_sortedB hs rv)
       (versionCanonical_putState_version (wf_versionCanonical hwf) rv) r⟩

theorem c8_version_invariant_amended_witness :
    versionMono [("VERSION_r", Value.version ⟨"r", 1⟩)]
      (IncrementVersionNumber [("VERSION_r", Value.version ⟨"r", 1⟩)] "r").2 ∧
    versionMono [("VERSION_r", Value.version ⟨"r", 1⟩)]
      (HandleGitPush [("VERSION_r", Value.version ⟨"r", 1⟩)] "r" "u" "h" "T").2 ∧
    versionFresh1 [] (CreateGitCommit [] "h" "r" "m" "a" "T").2 ∧
    versionCount (CreateGitCommit [] "h" "r" "m" "a" "T").2 "r" ≤ 1 ∧
    versionCount (IncrementVersionNumber
      [("VERSION_r", Value.version ⟨"r", 1⟩)] "r").2 "r" ≤ 1 ∧
    versionCount (HandleGitPush
      [("VERSION_r", Value.version ⟨"r", 1⟩)] "r" "u" "h" "T").2 "r" ≤ 1 ∧
    versionCount (SetRepositoryVersion
      [("VERSION_r", Value.version ⟨"r", 1⟩)] ⟨"r", 5⟩) "r" ≤ 1 :=
  ⟨(c8_version_invariant_amended.2.1 [("VERSION_r", Value.version ⟨"r", 1⟩)] "r"
      (by decide)).1,
   (c8_version_invariant_amended.2.2.1 [("VERSION_r", Value.version ⟨"r", 1⟩)]
      "r" "u" "h" "T" (by decide)).1,
   (c8_version_invariant_amended.1 [] "h" "r" "m" "a" "T").2,
   c8_version_invariant_amended.2.2.2.1 [] "h" "r" "m" "a" "T" "r"
      (by decide) (by decide),
   c8_version_invariant_amended.2.2.2.2.1 [("VERSION_r", Value.version ⟨"r", 1⟩)]
      "r" "r" (by decide) (by decide),
   c8_version_invariant_amended.2.2.2.2.2.1 [("VERSION_r", Value.version ⟨"r", 1⟩)]
      "r" "u" "h" "T" "r" (by decide) (by decide),
   c8_version_invariant_amended.2.2.2.2.2.2 [("VERSION_r", Value.version ⟨"r", 1⟩)]
      ⟨"r", 5⟩ "r" (by decide) (by decide)⟩
